import Mathlib

/-!
# Verification of `qutebrowser/utils/resources.py`

A shallow embedding of the resource-loading module of qutebrowser:
resource-name resolution (`_resource_path`), enumeration
(`_glob_resources`), the process-wide text cache with `preload_resources`,
and the two readers `read_file` / `read_file_binary`, together with the
`KeyError` → `FileNotFoundError` normalization
(`_resource_keyerror_workaround`).

The physical resource tree is modelled as an association list from
absolute paths (lists of path segments) to byte contents.  The deployment
mode (frozen executable vs. installed package, directory-backed vs.
archive-backed resources) is part of the environment `Env`.
-/

namespace Resources

/-- Byte strings (file contents) as lists of naturals. -/
abbrev Bytes := List Nat

/-- Error kinds raised by the Python code: `AssertionError` from failed
`assert` statements, `KeyError` from zipfile-backed lookups,
`FileNotFoundError` from ordinary missing files (and from the workaround),
`IsADirectoryError` from reading a directory, and `UnicodeDecodeError`
from `read_text(encoding=...)` on invalid UTF-8. -/
inductive RErr where
  | assertionError
  | keyError (msg : String)
  | fileNotFoundError (msg : String)
  | isADirectoryError
  | unicodeDecodeError
  deriving DecidableEq, Repr

/-- The filesystem / archive content: absolute paths (segment lists)
mapped to raw byte contents.  Directories are implicit: a path is a
directory when some file lies strictly below it. -/
structure FS where
  files : List (List String × Bytes)
  deriving DecidableEq, Repr

/-- Look up the content of a file at an exact path. -/
def FS.lookup (fs : FS) (p : List String) : Option Bytes :=
  match fs.files.find? (fun e => e.1 = p) with
  | some e => some e.2
  | none => none

/-- `p` is a directory: some file path strictly extends it. -/
def FS.isDir (fs : FS) (p : List String) : Bool :=
  fs.files.any (fun e => p.isPrefixOf e.1 && decide (p.length < e.1.length))

/-- Names of the direct children (files and implicit subdirectories) of
directory `p`, in filesystem listing order, without duplicates.  This is
what `pathlib.Path.glob` / `zipfile.Path.iterdir` enumerate. -/
def FS.children (fs : FS) (p : List String) : List String :=
  (fs.files.filterMap (fun e =>
    if p.isPrefixOf e.1 && decide (p.length < e.1.length) then
      (e.1.drop p.length).head?
    else none)).dedup

/-- The deployment environment: `frozen` is `hasattr(sys, "frozen")`
(PyInstaller); `zipBackend` says whether the non-frozen
`importlib_resources.files(qutebrowser)` handle is archive-backed
(`zipfile.Path`) rather than a plain `pathlib.Path`; `zipKeyError` says
whether the archive backend signals missing members with `KeyError`
(Python 3.8/3.9) rather than `FileNotFoundError`; `execParent` is the
directory of `sys.executable`; `pkgRoot` is the package resource root;
`fs` is the physical resource tree. -/
structure Env where
  frozen : Bool
  zipBackend : Bool
  zipKeyError : Bool
  execParent : List String
  pkgRoot : List String
  fs : FS
  deriving Repr

/-- The resolved root handle behaves like a plain directory
(`isinstance(resource_path, pathlib.Path)`): always in frozen mode, and
in non-frozen mode exactly when the package is not archive-backed. -/
def Env.isDirBackend (env : Env) : Bool :=
  env.frozen || !env.zipBackend

/-- The text-resource cache `_resource_cache`: a `dict` from resource
name to decoded text, modelled as an association list with
insertion-order keys (as Python dicts preserve insertion order). -/
abbrev Cache := List (String × String)

/-- `filename in _resource_cache` / `_resource_cache[filename]`. -/
def cacheLookup : Cache → String → Option String
  | [], _ => none
  | (k, v) :: rest, n => if k = n then some v else cacheLookup rest n

/-- `_resource_cache[filename] = value`: replace in place when the key is
present, append otherwise (Python dict assignment). -/
def cacheInsert : Cache → String → String → Cache
  | [], n, v => [(n, v)]
  | (k, w) :: rest, n, v =>
    if k = n then (n, v) :: rest else (k, w) :: cacheInsert rest n v

/-- `s.startswith(pre)`, computed structurally on the character lists
(so that the kernel can evaluate it on literals). -/
def strStarts (s pre : String) : Bool :=
  pre.data.isPrefixOf s.data

/-- `s.endswith(post)`, computed structurally on the character lists. -/
def strEnds (s post : String) : Bool :=
  post.data.isSuffixOf s.data

/-- `c in s` for a single character, computed structurally. -/
def strContains (s : String) (c : Char) : Bool :=
  s.data.contains c

/-- `posixpath.isabs(filename)`: starts with a slash. -/
def posixIsAbs (s : String) : Bool :=
  strStarts s "/"

/-- Split a character list at every slash (`str.split("/")`). -/
def splitSlashAux : List Char → List Char → List (List Char)
  | [], acc => [acc.reverse]
  | c :: cs, acc =>
    if c = '/' then acc.reverse :: splitSlashAux cs []
    else splitSlashAux cs (c :: acc)

/-- `filename.split(posixpath.sep)`. -/
def posixSplit (s : String) : List String :=
  (splitSlashAux s.data []).map String.mk

/-- Joining a `pathlib.Path` (or traversable) with a slash-separated
relative name: empty segments are dropped, as `PurePath` drops them. -/
def cleanSegs (s : String) : List String :=
  (posixSplit s).filter (fun seg => seg ≠ "")

/-- Join segments with forward slashes (`PurePath.as_posix` on a
relative path). -/
def joinSlash : List String → String
  | [] => ""
  | [x] => x
  | x :: xs => x ++ "/" ++ joinSlash xs

/-- `posixpath.join(a, b)` for a single join. -/
def posixJoin (a b : String) : String :=
  if posixIsAbs b then b
  else if a = "" then b
  else if strEnds a "/" then a ++ b
  else a ++ "/" ++ b

/-- Render a segment path for error messages. -/
def pathStr (p : List String) : String :=
  joinSlash p

/-- `_resource_path(filename)`: assert the name is not absolute and has
no `..` segment (an `AssertionError` otherwise), then branch on the
deployment mode: frozen resolves next to the executable, otherwise under
the package resource root. -/
def resource_path (env : Env) (filename : String) : Except RErr (List String) :=
  if posixIsAbs filename then .error .assertionError
  else if (posixSplit filename).contains ".." then .error .assertionError
  else if env.frozen then .ok (env.execParent ++ cleanSegs filename)
  else .ok (env.pkgRoot ++ cleanSegs filename)

/-- `with _resource_keyerror_workaround()`: re-raise `KeyError` as
`FileNotFoundError (str e)`, pass everything else through. -/
def resource_keyerror_workaround {α : Type} (r : Except RErr α) : Except RErr α :=
  match r with
  | .error (.keyError m) => .error (.fileNotFoundError m)
  | other => other

/-- `path.read_bytes()` on the resolved handle: the file content when
the path is a file; otherwise the backend-specific error
(`IsADirectoryError` / `FileNotFoundError` for directory-backed handles,
`KeyError` or `FileNotFoundError` for archive-backed ones). -/
def readBytesRaw (env : Env) (p : List String) : Except RErr Bytes :=
  match env.fs.lookup p with
  | some bs => .ok bs
  | none =>
    if env.isDirBackend then
      if env.fs.isDir p then .error .isADirectoryError
      else .error (.fileNotFoundError (pathStr p))
    else
      if env.zipKeyError then .error (.keyError (pathStr p))
      else .error (.fileNotFoundError (pathStr p))

/-- A UTF-8 continuation byte. -/
def utf8Cont (b : Nat) : Bool :=
  0x80 ≤ b && b < 0xC0

/-- Strict UTF-8 decoding with fuel (the fuel is the number of remaining
bytes, which suffices since every step consumes at least one byte).
Rejects overlong encodings, surrogates, and out-of-range code points,
like Python's strict `utf-8` codec. -/
def utf8DecodeFuel : Nat → List Nat → Option (List Char)
  | _, [] => some []
  | 0, _ :: _ => none
  | fuel + 1, b :: rest =>
    if b < 0x80 then
      (utf8DecodeFuel fuel rest).map (fun cs => Char.ofNat b :: cs)
    else if b < 0xC2 then none
    else if b < 0xE0 then
      match rest with
      | b1 :: rest1 =>
        if utf8Cont b1 then
          (utf8DecodeFuel fuel rest1).map
            (fun cs => Char.ofNat ((b - 0xC0) * 0x40 + (b1 - 0x80)) :: cs)
        else none
      | [] => none
    else if b < 0xF0 then
      match rest with
      | b1 :: b2 :: rest2 =>
        if utf8Cont b1 && utf8Cont b2 then
          let cp := (b - 0xE0) * 0x1000 + (b1 - 0x80) * 0x40 + (b2 - 0x80)
          if cp < 0x800 then none
          else if 0xD800 ≤ cp && cp < 0xE000 then none
          else (utf8DecodeFuel fuel rest2).map (fun cs => Char.ofNat cp :: cs)
        else none
      | _ => none
    else if b < 0xF5 then
      match rest with
      | b1 :: b2 :: b3 :: rest3 =>
        if utf8Cont b1 && utf8Cont b2 && utf8Cont b3 then
          let cp := (b - 0xF0) * 0x40000 + (b1 - 0x80) * 0x1000 +
            (b2 - 0x80) * 0x40 + (b3 - 0x80)
          if cp < 0x10000 then none
          else if 0x110000 ≤ cp then none
          else (utf8DecodeFuel fuel rest3).map (fun cs => Char.ofNat cp :: cs)
        else none
      | _ => none
    else none

/-- Decode a byte string as UTF-8 text. -/
def utf8Decode (bs : Bytes) : Option String :=
  (utf8DecodeFuel bs.length bs).map (fun cs => String.mk cs)

/-- `path.read_text(encoding="utf-8")`: read the bytes and decode them,
raising `UnicodeDecodeError` on invalid UTF-8. -/
def readTextRaw (env : Env) (p : List String) : Except RErr String :=
  match readBytesRaw env p with
  | .ok bs =>
    match utf8Decode bs with
    | some s => .ok s
    | none => .error .unicodeDecodeError
  | .error e => .error e

/-- `fnmatch`-style matching of a name against a glob pattern, as used by
`pathlib.Path.glob` for a single component: `*` matches any (possibly
empty) sequence of characters, `?` matches any single character, every
other character matches itself.  (Bracket character classes are not
modelled; the statements below never feed `[` to this matcher.) -/
def globMatch : List Char → List Char → Bool
  | [], s => s.isEmpty
  | a :: ps, s =>
    if a = '*' then s.tails.any (fun t => globMatch ps t)
    else
      match s with
      | [] => false
      | c :: cs => (a = '?' || a = c) && globMatch ps cs

/-- `_glob_resources(resource_path, subdir, ext)`: assert `ext` contains
no `*` and starts with `.`; then, for a directory-backed root, glob
`*{ext}` inside `resource_path / subdir` and yield the matches relative
to the root in POSIX form, and for an archive-backed root, assert the
subdirectory is a directory and yield `posixpath.join(subdir, name)` for
each direct member whose name ends with `ext`.  The lazy generator is
modelled as the eagerly computed list of yielded names. -/
def glob_resources (env : Env) (resource_path : List String)
    (subdir : String) (ext : String) : Except RErr (List String) :=
  if strContains ext '*' then .error .assertionError
  else if ¬ strStarts ext "." then .error .assertionError
  else
    let path := resource_path ++ cleanSegs subdir
    if env.isDirBackend then
      .ok (((env.fs.children path).filter
          (fun n => globMatch ('*' :: ext.data) n.data)).map
        (fun n => joinSlash (cleanSegs subdir ++ [n])))
    else
      if env.fs.isDir path then
        .ok (((env.fs.children path).filter (fun n => strEnds n ext)).map
          (fun n => posixJoin subdir n))
      else .error .assertionError

/-- The uncached text read: resolve the handle and `read_text` it inside
the `KeyError` workaround.  This is exactly the cache-miss path of
`read_file`. -/
def uncached_read_text (env : Env) (filename : String) : Except RErr String :=
  match resource_path env filename with
  | .ok p => resource_keyerror_workaround (readTextRaw env p)
  | .error e => .error e

/-- `read_file(filename)`: answer from the cache when the name is a key,
otherwise resolve and read.  The pair also returns the (unchanged) cache
to make the frame effect explicit. -/
def read_file (env : Env) (cache : Cache) (filename : String) :
    Except RErr String × Cache :=
  match cacheLookup cache filename with
  | some v => (.ok v, cache)
  | none =>
    match resource_path env filename with
    | .ok p => (resource_keyerror_workaround (readTextRaw env p), cache)
    | .error e => (.error e, cache)

/-- `read_file_binary(filename)`: resolve and return the raw bytes; the
cache is passed through untouched (the source never mentions it). -/
def read_file_binary (env : Env) (cache : Cache) (filename : String) :
    Except RErr Bytes × Cache :=
  match resource_path env filename with
  | .ok p => (resource_keyerror_workaround (readBytesRaw env p), cache)
  | .error e => (.error e, cache)

/-- The resource-tree root handle of the mode in effect: what
`_resource_path("")` resolves to. -/
def rootHandle (env : Env) : List String :=
  if env.frozen then env.execParent else env.pkgRoot

/-- The fixed `(subdir, ext)` pairs walked by `preload_resources`. -/
def preloadPairs : List (String × String) :=
  [("html", ".html"), ("javascript", ".js"), ("javascript/quirks", ".js")]

/-- Run a continuation on the cache left by a previous step when that
step succeeded; propagate its exception (keeping its cache) otherwise.
This is the sequencing of two statements in the Python loop body. -/
def seqStep (r : Except RErr Unit × Cache) (f : Cache → Except RErr Unit × Cache) :
    Except RErr Unit × Cache :=
  match r with
  | (.ok _, c1) => f c1
  | (.error e, c1) => (.error e, c1)

/-- The inner loop of `preload_resources`: for each discovered name, run
`read_file` against the current cache and store the result under the
name; an exception propagates, keeping the entries inserted so far. -/
def preloadNames (env : Env) : Cache → List String → Except RErr Unit × Cache
  | cache, [] => (.ok (), cache)
  | cache, n :: rest =>
    match read_file env cache n with
    | (.ok v, _) => preloadNames env (cacheInsert cache n v) rest
    | (.error e, _) => (.error e, cache)

/-- The outer loop of `preload_resources` over the fixed pairs. -/
def preloadLoop (env : Env) (root : List String) :
    Cache → List (String × String) → Except RErr Unit × Cache
  | cache, [] => (.ok (), cache)
  | cache, (subdir, ext) :: rest =>
    match glob_resources env root subdir ext with
    | .ok names =>
      seqStep (preloadNames env cache names) (fun c1 => preloadLoop env root c1 rest)
    | .error e => (.error e, cache)

/-- `preload_resources()`: resolve the root handle once, then walk the
fixed pairs, populating the cache. -/
def preload_resources (env : Env) (cache : Cache) : Except RErr Unit × Cache :=
  match resource_path env "" with
  | .ok root => preloadLoop env root cache preloadPairs
  | .error e => (.error e, cache)

end Resources

namespace Resources

/-! ## Concrete fixtures used by witnesses and counterexamples -/

/-- A small resource tree with an HTML template, a stray text file, a
plain JavaScript file and a quirks script. -/
def fs0 : FS := ⟨[
  (["pkg", "qutebrowser", "html", "log.html"], [60, 104, 116, 109, 108, 62]),
  (["pkg", "qutebrowser", "html", "x.txt"], [97]),
  (["pkg", "qutebrowser", "javascript", "bar.js"], [98]),
  (["pkg", "qutebrowser", "javascript", "quirks", "foo.js"], [106, 115])
]⟩

/-- A normal (non-frozen, directory-backed) installation. -/
def env0 : Env := ⟨false, false, false, ["exe"], ["pkg", "qutebrowser"], fs0⟩

/-- A non-frozen installation backed by an archive whose lookups raise
`KeyError` for missing members (Python 3.8/3.9 zipfile). -/
def envZip : Env := ⟨false, true, true, ["exe"], ["pkg", "qutebrowser"], fs0⟩

/-- A frozen (PyInstaller) deployment with the same tree placed next to
the executable. -/
def envFrozen : Env := ⟨true, false, false, ["pkg", "qutebrowser"], ["other"], fs0⟩

/-! ## Helper lemmas -/

theorem resource_path_ok (env : Env) (n : String)
    (h1 : posixIsAbs n = false) (h2 : (posixSplit n).contains ".." = false) :
    resource_path env n =
      .ok ((if env.frozen then env.execParent else env.pkgRoot) ++ cleanSegs n) := by
  unfold resource_path
  rw [h1, h2]
  cases hf : env.frozen <;> simp

theorem resource_path_empty (env : Env) :
    resource_path env "" = .ok (if env.frozen then env.execParent else env.pkgRoot) := by
  have h := resource_path_ok env "" (by decide) (by decide)
  rw [h]
  have hc : cleanSegs "" = [] := by decide
  rw [hc]
  cases hf : env.frozen <;> simp

theorem workaround_readBytes_not_found (env : Env) (p : List String)
    (hf : env.fs.lookup p = none) (hd : env.fs.isDir p = false) :
    resource_keyerror_workaround (readBytesRaw env p) =
      .error (.fileNotFoundError (pathStr p)) := by
  cases hb : env.isDirBackend <;> cases hk : env.zipKeyError <;>
    simp [readBytesRaw, hf, hd, hb, hk, resource_keyerror_workaround]

theorem readTextRaw_error (env : Env) (p : List String) (e : RErr)
    (h : readBytesRaw env p = .error e) : readTextRaw env p = .error e := by
  simp [readTextRaw, h]

theorem workaround_readText_not_found (env : Env) (p : List String)
    (hf : env.fs.lookup p = none) (hd : env.fs.isDir p = false) :
    resource_keyerror_workaround (readTextRaw env p) =
      .error (.fileNotFoundError (pathStr p)) := by
  have hb := workaround_readBytes_not_found env p hf hd
  cases hr : readBytesRaw env p with
  | ok bs =>
    rw [hr] at hb
    simp [resource_keyerror_workaround] at hb
  | error e =>
    rw [readTextRaw_error env p e hr]
    rw [hr] at hb
    cases e <;> simp_all [resource_keyerror_workaround]

/-! ## Claims -/

/-- C3: `_resource_path` fails with a fatal `AssertionError` exactly when
the name is absolute or one of its slash-separated segments is the
parent-directory component `..`; on every other name both assertions pass
and resolution succeeds. -/
theorem resource_path_assertion_iff (env : Env) (n : String) :
    ((posixIsAbs n = true ∨ (posixSplit n).contains ".." = true) →
      resource_path env n = .error .assertionError)
    ∧ ((posixIsAbs n = false ∧ (posixSplit n).contains ".." = false) →
      ∃ p, resource_path env n = .ok p) := by
  constructor
  · rintro (h | h) <;> simp [resource_path, h]
    exact fun _ h2 => absurd (by simpa using h) h2
  · rintro ⟨h1, h2⟩
    exact ⟨_, resource_path_ok env n h1 h2⟩

/-- Witness for C3: `"/etc/passwd"` and `"a/../b"` trigger the
assertion, `"html/log.html"` resolves. -/
theorem resource_path_assertion_iff_witness :
    resource_path env0 "/etc/passwd" = .error .assertionError
    ∧ resource_path env0 "a/../b" = .error .assertionError
    ∧ ∃ p, resource_path env0 "html/log.html" = .ok p :=
  ⟨(resource_path_assertion_iff env0 "/etc/passwd").1 (Or.inl (by decide)),
   (resource_path_assertion_iff env0 "a/../b").1 (Or.inr (by decide)),
   (resource_path_assertion_iff env0 "html/log.html").2 ⟨by decide, by decide⟩⟩

/-- C4: on valid relative names the resolver branches exactly on the
deployment mode — frozen resolves under the executable's parent
directory, non-frozen under the package resource root — and the empty
name resolves to the resource-tree root of the mode in effect. -/
theorem resource_path_mode (env : Env) (n : String)
    (h1 : posixIsAbs n = false) (h2 : (posixSplit n).contains ".." = false) :
    (env.frozen = true →
      resource_path env n = .ok (env.execParent ++ cleanSegs n))
    ∧ (env.frozen = false →
      resource_path env n = .ok (env.pkgRoot ++ cleanSegs n))
    ∧ resource_path env "" =
        .ok (if env.frozen then env.execParent else env.pkgRoot) := by
  refine ⟨?_, ?_, resource_path_empty env⟩ <;> intro hf <;>
    rw [resource_path_ok env n h1 h2, hf] <;> simp

/-- Witness for C4: a name resolved in non-frozen and frozen mode, and
the empty name yielding the root. -/
theorem resource_path_mode_witness :
    resource_path env0 "html/log.html" = .ok ["pkg", "qutebrowser", "html", "log.html"]
    ∧ resource_path envFrozen "html/log.html" = .ok ["pkg", "qutebrowser", "html", "log.html"]
    ∧ resource_path env0 "" = .ok ["pkg", "qutebrowser"] :=
  ⟨by rw [(resource_path_mode env0 "html/log.html" (by decide) (by decide)).2.1 rfl]; rfl,
   by rw [(resource_path_mode envFrozen "html/log.html" (by decide) (by decide)).1 rfl]; rfl,
   by rw [(resource_path_mode env0 "x" (by decide) (by decide)).2.2]; rfl⟩

end Resources

namespace Resources

/-- C1: `read_file` answers a cache hit directly — the result does not
depend on the environment at all, so no resolution or I/O is involved —
and on a cache miss performs exactly the uncached resolve-read-decode,
handing back the cache as it was (a miss never adds an entry). -/
theorem read_file_cache_contract (env env2 : Env) (c : Cache) (n : String) :
    (∀ v, cacheLookup c n = some v →
      read_file env c n = (.ok v, c) ∧ read_file env c n = read_file env2 c n)
    ∧ (cacheLookup c n = none →
      read_file env c n = (uncached_read_text env n, c)) := by
  constructor
  · intro v h
    constructor <;> simp [read_file, h]
  · intro h
    simp only [read_file, uncached_read_text, h]
    cases hr : resource_path env n <;> simp

/-- Witness for C1: a hit returns the cached text in any environment; a
miss returns the uncached read with the cache unchanged. -/
theorem read_file_cache_contract_witness :
    (read_file env0 [("html/log.html", "cached")] "html/log.html" =
        (.ok "cached", [("html/log.html", "cached")])
      ∧ read_file env0 [("html/log.html", "cached")] "html/log.html" =
          read_file envFrozen [("html/log.html", "cached")] "html/log.html")
    ∧ read_file env0 [] "html/x.txt" = (uncached_read_text env0 "html/x.txt", []) :=
  ⟨(read_file_cache_contract env0 envFrozen
      [("html/log.html", "cached")] "html/log.html").1 "cached" rfl,
   (read_file_cache_contract env0 envFrozen [] "html/x.txt").2 rfl⟩

/-- C2: for a valid name absent from the cache and from the resource
tree, both readers fail with `FileNotFoundError`, in every deployment
mode — in particular the archive-backed `KeyError` is translated. -/
theorem readers_normalize_not_found (env : Env) (c : Cache) (n : String)
    (hc : cacheLookup c n = none)
    (h1 : posixIsAbs n = false) (h2 : (posixSplit n).contains ".." = false)
    (hf : env.fs.lookup
      ((if env.frozen then env.execParent else env.pkgRoot) ++ cleanSegs n) = none)
    (hd : env.fs.isDir
      ((if env.frozen then env.execParent else env.pkgRoot) ++ cleanSegs n) = false) :
    (∃ m, read_file env c n = (.error (.fileNotFoundError m), c))
    ∧ (∃ m, read_file_binary env c n = (.error (.fileNotFoundError m), c)) := by
  have hp := resource_path_ok env n h1 h2
  refine ⟨⟨pathStr ((if env.frozen then env.execParent else env.pkgRoot) ++ cleanSegs n), ?_⟩,
    ⟨pathStr ((if env.frozen then env.execParent else env.pkgRoot) ++ cleanSegs n), ?_⟩⟩
  · simp [read_file, hc, hp, workaround_readText_not_found env _ hf hd]
  · simp [read_file_binary, hp, workaround_readBytes_not_found env _ hf hd]

/-- Witness for C2: a missing name in an archive-backed deployment whose
lookups raise `KeyError` still surfaces as `FileNotFoundError`. -/
theorem readers_normalize_not_found_witness :
    (∃ m, read_file envZip [] "missing/nope.html" = (.error (.fileNotFoundError m), []))
    ∧ (∃ m, read_file_binary envZip [] "missing/nope.html" =
        (.error (.fileNotFoundError m), [])) :=
  readers_normalize_not_found envZip [] "missing/nope.html" rfl (by decide) (by decide)
    (by decide) (by decide)

/-- C9: `read_file_binary` neither reads nor writes the cache — the
cache comes back unchanged, the result is identical for any two cache
states (in particular before and after any `preload_resources` run) —
and on an existing file it returns the raw bytes. -/
theorem read_file_binary_no_cache (env : Env) (c c2 : Cache) (n : String) :
    (read_file_binary env c n).2 = c
    ∧ (read_file_binary env c n).1 = (read_file_binary env c2 n).1
    ∧ (∀ c0 r c1, preload_resources env c0 = (r, c1) →
        (read_file_binary env c1 n).1 = (read_file_binary env c0 n).1)
    ∧ (∀ p bs, resource_path env n = .ok p → env.fs.lookup p = some bs →
        (read_file_binary env c n).1 = .ok bs) := by
  refine ⟨?_, ?_, ?_, ?_⟩
  · cases hr : resource_path env n <;> simp [read_file_binary, hr]
  · cases hr : resource_path env n <;> simp [read_file_binary, hr]
  · intro c0 r c1 _
    cases hr : resource_path env n <;> simp [read_file_binary, hr]
  · intro p bs hp hb
    simp [read_file_binary, hp, readBytesRaw, hb, resource_keyerror_workaround]

/-- Witness for C9: the bytes of `html/log.html` are returned unchanged
even when the name is a key of the cache. -/
theorem read_file_binary_no_cache_witness :
    (read_file_binary env0 [("html/log.html", "stale")] "html/log.html").1 =
      .ok [60, 104, 116, 109, 108, 62] :=
  (read_file_binary_no_cache env0 [("html/log.html", "stale")] [] "html/log.html").2.2.2
    ["pkg", "qutebrowser", "html", "log.html"] [60, 104, 116, 109, 108, 62] rfl rfl

/-- C10: the invalid-name assertions run only on the cache-miss path:
a cached name — even one the resolver would reject with an assertion —
is answered from the cache without the resolver running. -/
theorem read_file_hit_skips_assertions (env : Env) (c : Cache) (n v : String)
    (_hbad : resource_path env n = .error .assertionError)
    (hc : cacheLookup c n = some v) :
    read_file env c n = (.ok v, c) := by
  simp [read_file, hc]

/-- Witness for C10: `"../evil"` fails the resolver's assertion, yet its
cached entry is returned untouched. -/
theorem read_file_hit_skips_assertions_witness :
    resource_path env0 "../evil" = .error .assertionError
    ∧ read_file env0 [("../evil", "boo")] "../evil" = (.ok "boo", [("../evil", "boo")]) :=
  ⟨rfl, read_file_hit_skips_assertions env0 [("../evil", "boo")] "../evil" "boo" rfl rfl⟩

end Resources

namespace Resources

/-! ## Glob-pattern lemmas for the enumeration claim -/

theorem globMatch_nowild (p : List Char) (hstar : '*' ∉ p) (hq : '?' ∉ p) :
    ∀ s : List Char, (globMatch p s = true ↔ p = s) := by
  induction p with
  | nil =>
    intro s
    cases s <;> simp [globMatch]
  | cons a ps ih =>
    have ha : a ≠ '*' := fun h => hstar (h ▸ List.mem_cons_self a ps)
    have hb : a ≠ '?' := fun h => hq (h ▸ List.mem_cons_self a ps)
    have hs2 : '*' ∉ ps := fun h => hstar (List.mem_cons_of_mem _ h)
    have hq2 : '?' ∉ ps := fun h => hq (List.mem_cons_of_mem _ h)
    intro s
    cases s with
    | nil => simp [globMatch, ha]
    | cons c cs => simp [globMatch, ha, hb, ih hs2 hq2 cs]

theorem globMatch_star_suffix (p : List Char) (hstar : '*' ∉ p) (hq : '?' ∉ p) :
    ∀ s : List Char, (globMatch ('*' :: p) s = true ↔ p <:+ s) := by
  intro s
  rw [show globMatch ('*' :: p) s = s.tails.any (fun t => globMatch p t) from by
    simp [globMatch]]
  rw [List.any_eq_true]
  constructor
  · rintro ⟨t, ht, hm⟩
    rw [globMatch_nowild p hstar hq t] at hm
    exact hm ▸ (List.mem_tails t s).mp ht
  · intro h
    exact ⟨p, (List.mem_tails p s).mpr h, (globMatch_nowild p hstar hq p).mpr rfl⟩

end Resources

namespace Resources

theorem strContains_false {s : String} {c : Char}
    (h : strContains s c = false) : c ∉ s.data := by
  intro hm
  have ht : strContains s c = true :=
    List.contains_iff_exists_mem_beq.mpr ⟨c, hm, by simp⟩
  rw [h] at ht
  exact Bool.false_ne_true ht

theorem globMatch_eq_strEnds (ext n : String)
    (hstar : strContains ext '*' = false) (hq : strContains ext '?' = false) :
    globMatch ('*' :: ext.data) n.data = strEnds n ext := by
  rw [Bool.eq_iff_iff]
  rw [globMatch_star_suffix ext.data (strContains_false hstar)
    (strContains_false hq) n.data]
  simp [strEnds]

/-- A directory-backed tree holding the single file `s/a.xs`, used to
refute the ends-with reading of the enumeration contract. -/
def envGlob : Env :=
  ⟨false, false, false, ["exe"], ["pkg", "qutebrowser"],
    ⟨[(["pkg", "qutebrowser", "s", "a.xs"], [97])]⟩⟩

/-- Counterexample to C5 as stated: the extension `".?s"` passes both
assertions (no `*`, starts with `.`), yet directory-backed enumeration
yields `s/a.xs`, whose filename does not end with `".?s"`: the glob
treats `?` as a wildcard, so the yield is not the ends-with filter. -/
theorem glob_resources_counterexample :
    strContains ".?s" '*' = false
    ∧ strStarts ".?s" "." = true
    ∧ glob_resources envGlob ["pkg", "qutebrowser"] "s" ".?s" = .ok ["s/a.xs"]
    ∧ strEnds "a.xs" ".?s" = false :=
  ⟨by decide, by decide, rfl, by decide⟩

/-- C5 (amended): for an extension that starts with `.` and contains no
glob wildcard character (`*`, `?`, `[`), enumeration yields exactly the
direct entries of the subdirectory whose filename ends with the
extension, each joined to the subdirectory as a forward-slash path
relative to the root; an extension containing `*` or not starting with
`.` is rejected by assertion, and an archive-backed handle additionally
asserts that the resolved subdirectory is a directory. -/
theorem glob_resources_spec (env : Env) (root : List String) (subdir ext : String)
    (hstar : strContains ext '*' = false)
    (hq : strContains ext '?' = false)
    (_hbr : strContains ext '[' = false)
    (hdot : strStarts ext "." = true) :
    (env.isDirBackend = true →
      glob_resources env root subdir ext =
        .ok (((env.fs.children (root ++ cleanSegs subdir)).filter
            (fun n => strEnds n ext)).map
          (fun n => joinSlash (cleanSegs subdir ++ [n]))))
    ∧ (env.isDirBackend = false →
        (env.fs.isDir (root ++ cleanSegs subdir) = true →
          glob_resources env root subdir ext =
            .ok (((env.fs.children (root ++ cleanSegs subdir)).filter
                (fun n => strEnds n ext)).map (fun n => posixJoin subdir n)))
        ∧ (env.fs.isDir (root ++ cleanSegs subdir) = false →
          glob_resources env root subdir ext = .error .assertionError))
    ∧ (∀ e : String, strContains e '*' = true ∨ strStarts e "." = false →
        glob_resources env root subdir e = .error .assertionError) := by
  refine ⟨?_, fun hb => ⟨?_, ?_⟩, ?_⟩
  · intro hb
    have hfil : (env.fs.children (root ++ cleanSegs subdir)).filter
        (fun n => globMatch ('*' :: ext.data) n.data)
        = (env.fs.children (root ++ cleanSegs subdir)).filter
          (fun n => strEnds n ext) :=
      List.filter_congr (fun x _ => globMatch_eq_strEnds ext x hstar hq)
    simp only [glob_resources, hstar, hdot, hb]
    simp [hfil]
  · intro hd
    simp only [glob_resources, hstar, hdot, hb, hd]
    simp
  · intro hd
    simp only [glob_resources, hstar, hdot, hb, hd]
    simp
  · intro e he
    rcases he with he | he
    · simp [glob_resources, he]
    · cases hce : strContains e '*' <;> simp [glob_resources, hce, he]

/-- Witness for the amended C5: concrete enumerations in directory- and
archive-backed mode, the missing-directory assertion, and a malformed
extension. -/
theorem glob_resources_spec_witness :
    glob_resources env0 ["pkg", "qutebrowser"] "html" ".html" = .ok ["html/log.html"]
    ∧ glob_resources envZip ["pkg", "qutebrowser"] "javascript" ".js" =
        .ok ["javascript/bar.js"]
    ∧ glob_resources envZip ["pkg", "qutebrowser"] "nosuch" ".js" =
        .error .assertionError
    ∧ glob_resources env0 ["pkg", "qutebrowser"] "html" "html" =
        .error .assertionError := by
  refine ⟨?_, ?_, ?_, ?_⟩
  · rw [(glob_resources_spec env0 ["pkg", "qutebrowser"] "html" ".html"
      (by decide) (by decide) (by decide) (by decide)).1 rfl]
    rfl
  · rw [((glob_resources_spec envZip ["pkg", "qutebrowser"] "javascript" ".js"
      (by decide) (by decide) (by decide) (by decide)).2.1 rfl).1 (by decide)]
    rfl
  · exact ((glob_resources_spec envZip ["pkg", "qutebrowser"] "nosuch" ".js"
      (by decide) (by decide) (by decide) (by decide)).2.1 rfl).2 (by decide)
  · exact (glob_resources_spec env0 ["pkg", "qutebrowser"] "html" ".html"
      (by decide) (by decide) (by decide) (by decide)).2.2 "html" (Or.inr (by decide))

end Resources

namespace Resources

/-! ## Cache lemmas -/

theorem cacheLookup_insert_self (c : Cache) (k v : String) :
    cacheLookup (cacheInsert c k v) k = some v := by
  induction c with
  | nil => simp [cacheInsert, cacheLookup]
  | cons e rest ih =>
    obtain ⟨q, w⟩ := e
    by_cases h : q = k
    · subst h; simp [cacheInsert, cacheLookup]
    · simp [cacheInsert, cacheLookup, h, ih]

theorem cacheLookup_insert_ne (c : Cache) (k v m : String) (h : k ≠ m) :
    cacheLookup (cacheInsert c k v) m = cacheLookup c m := by
  induction c with
  | nil => simp [cacheInsert, cacheLookup, h]
  | cons e rest ih =>
    obtain ⟨q, w⟩ := e
    by_cases hq : q = k
    · subst hq; simp [cacheInsert, cacheLookup, h]
    · by_cases hm : q = m
      · subst hm; simp [cacheInsert, cacheLookup, hq]
      · simp [cacheInsert, cacheLookup, hq, hm, ih]

theorem cacheInsert_self_eq (c : Cache) (k v : String)
    (h : cacheLookup c k = some v) : cacheInsert c k v = c := by
  induction c with
  | nil => simp [cacheLookup] at h
  | cons e rest ih =>
    obtain ⟨q, w⟩ := e
    by_cases hq : q = k
    · subst hq
      simp [cacheLookup] at h
      simp [cacheInsert, h]
    · simp [cacheLookup, hq] at h
      simp [cacheInsert, hq, ih h]

/-! ## `read_file` basic lemmas -/

theorem read_file_snd (env : Env) (c : Cache) (n : String) :
    (read_file env c n).2 = c := by
  cases hc : cacheLookup c n
  · cases hr : resource_path env n <;> simp [read_file, hc, hr]
  · simp [read_file, hc]

theorem read_file_fst_congr (env : Env) {c1 c2 : Cache} (n : String)
    (h : cacheLookup c1 n = cacheLookup c2 n) :
    (read_file env c1 n).1 = (read_file env c2 n).1 := by
  cases hc : cacheLookup c2 n
  · rw [hc] at h
    cases hr : resource_path env n <;> simp [read_file, h, hc, hr]
  · rw [hc] at h
    simp [read_file, h, hc]

/-! ## Unfolding lemmas for the preload loops -/

theorem preloadNames_cons_ok (env : Env) (c : Cache) (n v : String)
    (rest : List String) (h : (read_file env c n).1 = .ok v) :
    preloadNames env c (n :: rest) = preloadNames env (cacheInsert c n v) rest := by
  have hs := read_file_snd env c n
  rcases hp : read_file env c n with ⟨f, s⟩
  rw [hp] at h hs
  simp only at h hs
  subst h; subst hs
  simp [preloadNames, hp]

theorem preloadNames_cons_err (env : Env) (c : Cache) (n : String) (e : RErr)
    (rest : List String) (h : (read_file env c n).1 = .error e) :
    preloadNames env c (n :: rest) = (.error e, c) := by
  have hs := read_file_snd env c n
  rcases hp : read_file env c n with ⟨f, s⟩
  rw [hp] at h hs
  simp only at h hs
  subst h; subst hs
  simp [preloadNames, hp]

theorem seqStep_pure (r : Except RErr Unit × Cache) :
    seqStep r (fun c => (.ok (), c)) = r := by
  rcases r with ⟨f, c⟩
  cases f with
  | ok u => cases u; rfl
  | error e => rfl

theorem seqStep_congr (r : Except RErr Unit × Cache)
    {f g : Cache → Except RErr Unit × Cache} (h : ∀ c, f c = g c) :
    seqStep r f = seqStep r g := by
  rcases r with ⟨x, c⟩
  cases x <;> simp [seqStep, h]

theorem preloadNames_append (env : Env) (l1 l2 : List String) :
    ∀ c : Cache, preloadNames env c (l1 ++ l2) =
      seqStep (preloadNames env c l1) (fun c1 => preloadNames env c1 l2) := by
  induction l1 with
  | nil => intro c; simp [preloadNames, seqStep]
  | cons n l1 ih =>
    intro c
    cases hf : (read_file env c n).1 with
    | ok v =>
      rw [List.cons_append, preloadNames_cons_ok env c n v (l1 ++ l2) hf,
        preloadNames_cons_ok env c n v l1 hf]
      exact ih (cacheInsert c n v)
    | error e =>
      rw [List.cons_append, preloadNames_cons_err env c n e (l1 ++ l2) hf,
        preloadNames_cons_err env c n e l1 hf]
      rfl

theorem preloadLoop_cons_ok (env : Env) (root : List String) (c : Cache)
    (s e : String) (rest : List (String × String)) (names : List String)
    (h : glob_resources env root s e = .ok names) :
    preloadLoop env root c ((s, e) :: rest) =
      seqStep (preloadNames env c names) (fun c1 => preloadLoop env root c1 rest) := by
  simp [preloadLoop, h]

theorem preloadLoop_cons_err (env : Env) (root : List String) (c : Cache)
    (s e : String) (rest : List (String × String)) (er : RErr)
    (h : glob_resources env root s e = .error er) :
    preloadLoop env root c ((s, e) :: rest) = (.error er, c) := by
  simp [preloadLoop, h]

theorem resource_path_root (env : Env) :
    resource_path env "" = .ok (rootHandle env) :=
  resource_path_empty env

end Resources

namespace Resources

/-! ## Behavior of `preloadNames` -/

theorem preloadNames_spec (env : Env) (names : List String) :
    ∀ c0 c : Cache,
    (∀ n ∈ names, cacheLookup c n = cacheLookup c0 n) →
    (∀ n ∈ names, ∃ v, (read_file env c0 n).1 = .ok v) →
    names.Nodup →
    ∃ c', preloadNames env c names = (.ok (), c')
      ∧ (∀ n ∈ names, ∀ v, (read_file env c0 n).1 = .ok v → cacheLookup c' n = some v)
      ∧ (∀ m, m ∉ names → cacheLookup c' m = cacheLookup c m) := by
  induction names with
  | nil =>
    intro c0 c _ _ _
    exact ⟨c, rfl, by simp, fun m _ => rfl⟩
  | cons n rest ih =>
    intro c0 c hagree hok hnd
    obtain ⟨v, hv⟩ := hok n (List.mem_cons_self n rest)
    have hfst : (read_file env c n).1 = .ok v := by
      rw [read_file_fst_congr env n (hagree n (List.mem_cons_self n rest))]
      exact hv
    have hnotin : n ∉ rest := (List.nodup_cons.mp hnd).1
    have hndr : rest.Nodup := (List.nodup_cons.mp hnd).2
    have hagree2 : ∀ m ∈ rest, cacheLookup (cacheInsert c n v) m = cacheLookup c0 m := by
      intro m hm
      have hne : n ≠ m := fun h => hnotin (h ▸ hm)
      rw [cacheLookup_insert_ne c n v m hne]
      exact hagree m (List.mem_cons_of_mem _ hm)
    have hok2 : ∀ m ∈ rest, ∃ w, (read_file env c0 m).1 = .ok w :=
      fun m hm => hok m (List.mem_cons_of_mem _ hm)
    obtain ⟨c', hc', hmem, hframe⟩ := ih c0 (cacheInsert c n v) hagree2 hok2 hndr
    refine ⟨c', ?_, ?_, ?_⟩
    · rw [preloadNames_cons_ok env c n v rest hfst]
      exact hc'
    · intro m hm w hw
      rcases List.mem_cons.mp hm with rfl | hm2
      · have hwv : w = v := by
          rw [hv] at hw
          exact (Except.ok.inj hw).symm
      -- the head name is not reprocessed: its entry survives the rest
        rw [hframe m hnotin, hwv]
        exact cacheLookup_insert_self c m v
      · exact hmem m hm2 w hw
    · intro m hm
      have hm2 : m ∉ rest := fun h => hm (List.mem_cons_of_mem _ h)
      have hmn : n ≠ m := fun h => hm (h ▸ List.mem_cons_self n rest)
      rw [hframe m hm2]
      exact cacheLookup_insert_ne c n v m hmn

theorem preloadNames_cached (env : Env) (names : List String) :
    ∀ c : Cache, (∀ n ∈ names, ∃ v, cacheLookup c n = some v) →
    preloadNames env c names = (.ok (), c) := by
  induction names with
  | nil => intro c _; rfl
  | cons n rest ih =>
    intro c h
    obtain ⟨v, hv⟩ := h n (List.mem_cons_self n rest)
    have hfst : (read_file env c n).1 = .ok v := by simp [read_file, hv]
    rw [preloadNames_cons_ok env c n v rest hfst]
    rw [cacheInsert_self_eq c n v hv]
    exact ih c (fun m hm => h m (List.mem_cons_of_mem _ hm))

theorem preloadNames_some (env : Env) (names : List String) :
    ∀ c c1 : Cache, preloadNames env c names = (.ok (), c1) →
    ∀ n, (n ∈ names ∨ ∃ v, cacheLookup c n = some v) →
    ∃ v, cacheLookup c1 n = some v := by
  induction names with
  | nil =>
    intro c c1 h n hn
    have hcc : c = c1 := congrArg Prod.snd h
    rcases hn with h2 | h2
    · simp at h2
    · exact hcc ▸ h2
  | cons n rest ih =>
    intro c c1 h m hm
    cases hf : (read_file env c n).1 with
    | ok v =>
      rw [preloadNames_cons_ok env c n v rest hf] at h
      apply ih (cacheInsert c n v) c1 h
      rcases hm with hm | hm
      · rcases List.mem_cons.mp hm with rfl | hm2
        · exact Or.inr ⟨v, cacheLookup_insert_self c m v⟩
        · exact Or.inl hm2
      · obtain ⟨w, hw⟩ := hm
        by_cases hmn : n = m
        · subst hmn
          exact Or.inr ⟨v, cacheLookup_insert_self c n v⟩
        · exact Or.inr ⟨w, by rw [cacheLookup_insert_ne c n v m hmn]; exact hw⟩
    | error e =>
      rw [preloadNames_cons_err env c n e rest hf] at h
      exact absurd (congrArg Prod.fst h) (by simp)

theorem preloadNames_ok_reads (env : Env) (names : List String) :
    ∀ c0 c c1 : Cache,
    (∀ n ∈ names, cacheLookup c n = cacheLookup c0 n) →
    names.Nodup →
    preloadNames env c names = (.ok (), c1) →
    ∀ n ∈ names, ∃ v, (read_file env c0 n).1 = .ok v := by
  induction names with
  | nil => intro c0 c c1 _ _ _ n hn; simp at hn
  | cons n rest ih =>
    intro c0 c c1 hagree hnd h m hm
    cases hf : (read_file env c n).1 with
    | ok v =>
      rcases List.mem_cons.mp hm with rfl | hm2
      · refine ⟨v, ?_⟩
        rw [← read_file_fst_congr env m (hagree m (List.mem_cons_self m rest))]
        exact hf
      · rw [preloadNames_cons_ok env c n v rest hf] at h
        have hnotin : n ∉ rest := (List.nodup_cons.mp hnd).1
        have hagree2 : ∀ q ∈ rest,
            cacheLookup (cacheInsert c n v) q = cacheLookup c0 q := by
          intro q hq
          have hne : n ≠ q := fun he => hnotin (he ▸ hq)
          rw [cacheLookup_insert_ne c n v q hne]
          exact hagree q (List.mem_cons_of_mem _ hq)
        exact ih c0 (cacheInsert c n v) c1 hagree2 (List.nodup_cons.mp hnd).2 h m hm2
    | error e =>
      rw [preloadNames_cons_err env c n e rest hf] at h
      exact absurd (congrArg Prod.fst h) (by simp)

/-! ## Behavior of `preloadLoop` -/

theorem preloadLoop_some (env : Env) (root : List String)
    (pairs : List (String × String)) :
    ∀ c c' : Cache, preloadLoop env root c pairs = (.ok (), c') →
    ∀ n, (∃ v, cacheLookup c n = some v) → ∃ v, cacheLookup c' n = some v := by
  induction pairs with
  | nil =>
    intro c c' h n hn
    have hcc : c = c' := congrArg Prod.snd h
    exact hcc ▸ hn
  | cons pr rest ih =>
    intro c c' h n hn
    obtain ⟨s, e⟩ := pr
    cases hg : glob_resources env root s e with
    | ok names =>
      rw [preloadLoop_cons_ok env root c s e rest names hg] at h
      rcases hpn : preloadNames env c names with ⟨f, c1⟩
      rw [hpn] at h
      cases f with
      | ok u =>
        cases u
        simp only [seqStep] at h
        exact ih c1 c' h n (preloadNames_some env names c c1 hpn n (Or.inr hn))
      | error er =>
        simp only [seqStep] at h
        exact absurd (congrArg Prod.fst h) (by simp)
    | error er =>
      rw [preloadLoop_cons_err env root c s e rest er hg] at h
      exact absurd (congrArg Prod.fst h) (by simp)

theorem preloadLoop_idem (env : Env) (root : List String)
    (pairs : List (String × String)) :
    ∀ c c' : Cache, preloadLoop env root c pairs = (.ok (), c') →
    preloadLoop env root c' pairs = (.ok (), c') := by
  induction pairs with
  | nil =>
    intro c c' h
    have hcc : c = c' := congrArg Prod.snd h
    exact hcc ▸ h
  | cons pr rest ih =>
    intro c c' h
    obtain ⟨s, e⟩ := pr
    cases hg : glob_resources env root s e with
    | ok names =>
      rw [preloadLoop_cons_ok env root c s e rest names hg] at h
      rcases hpn : preloadNames env c names with ⟨f, c1⟩
      rw [hpn] at h
      cases f with
      | ok u =>
        cases u
        simp only [seqStep] at h
        have hsome : ∀ m ∈ names, ∃ v, cacheLookup c' m = some v := by
          intro m hm
          exact preloadLoop_some env root rest c1 c' h m
            (preloadNames_some env names c c1 hpn m (Or.inl hm))
        rw [preloadLoop_cons_ok env root c' s e rest names hg]
        rw [preloadNames_cached env names c' hsome]
        simp only [seqStep]
        exact ih c1 c' h
      | error er =>
        simp only [seqStep] at h
        exact absurd (congrArg Prod.fst h) (by simp)
    | error er =>
      rw [preloadLoop_cons_err env root c s e rest er hg] at h
      exact absurd (congrArg Prod.fst h) (by simp)

end Resources

namespace Resources

theorem preload_eq_names (env : Env) (c : Cache) (L1 L2 L3 : List String)
    (h1 : glob_resources env (rootHandle env) "html" ".html" = .ok L1)
    (h2 : glob_resources env (rootHandle env) "javascript" ".js" = .ok L2)
    (h3 : glob_resources env (rootHandle env) "javascript/quirks" ".js" = .ok L3) :
    preload_resources env c = preloadNames env c (L1 ++ (L2 ++ L3)) := by
  have hroot : preload_resources env c
      = preloadLoop env (rootHandle env) c preloadPairs := by
    simp [preload_resources, resource_path_root]
  rw [hroot]
  rw [show preloadPairs
    = [("html", ".html"), ("javascript", ".js"), ("javascript/quirks", ".js")] from rfl]
  rw [preloadLoop_cons_ok env (rootHandle env) c "html" ".html" _ L1 h1]
  rw [preloadNames_append env L1 (L2 ++ L3) c]
  apply seqStep_congr
  intro c1
  rw [preloadLoop_cons_ok env (rootHandle env) c1 "javascript" ".js" _ L2 h2]
  rw [preloadNames_append env L2 L3 c1]
  apply seqStep_congr
  intro c2
  rw [preloadLoop_cons_ok env (rootHandle env) c2 "javascript/quirks" ".js" _ L3 h3]
  rw [show (fun c3 => preloadLoop env (rootHandle env) c3 ([] : List (String × String)))
    = (fun c3 => ((.ok (), c3) : Except RErr Unit × Cache)) from rfl]
  exact seqStep_pure _

theorem read_file_empty_fst (env : Env) (n : String) :
    (read_file env [] n).1 = uncached_read_text env n := by
  cases hr : resource_path env n <;> simp [read_file, uncached_read_text, cacheLookup, hr]

/-- C6: `preload_resources` walks exactly the fixed pairs
(`html`/`.html`, `javascript`/`.js`, `javascript/quirks`/`.js`) against
the resource-tree root; when every discovered name reads successfully it
returns `()` and its only effect is to store, under each discovered
name, the result of the text read of that name — every other cache entry
is untouched. -/
theorem preload_resources_spec (env : Env) (c : Cache) (L1 L2 L3 : List String)
    (h1 : glob_resources env (rootHandle env) "html" ".html" = .ok L1)
    (h2 : glob_resources env (rootHandle env) "javascript" ".js" = .ok L2)
    (h3 : glob_resources env (rootHandle env) "javascript/quirks" ".js" = .ok L3)
    (hnd : (L1 ++ (L2 ++ L3)).Nodup)
    (hok : ∀ n ∈ L1 ++ (L2 ++ L3), ∃ v, (read_file env c n).1 = .ok v) :
    ∃ c', preload_resources env c = (.ok (), c')
      ∧ (∀ n ∈ L1 ++ (L2 ++ L3), ∀ v, (read_file env c n).1 = .ok v →
          cacheLookup c' n = some v)
      ∧ (∀ m, m ∉ L1 ++ (L2 ++ L3) → cacheLookup c' m = cacheLookup c m) := by
  rw [preload_eq_names env c L1 L2 L3 h1 h2 h3]
  exact preloadNames_spec env (L1 ++ (L2 ++ L3)) c c (fun _ _ => rfl) hok hnd

/-- Witness for C6: preloading the concrete tree `fs0` caches exactly
`html/log.html`, `javascript/bar.js` and `javascript/quirks/foo.js`. -/
theorem preload_resources_spec_witness :
    ∃ c', preload_resources env0 [] = (.ok (), c')
      ∧ (∀ n ∈ ["html/log.html"] ++ (["javascript/bar.js"] ++ ["javascript/quirks/foo.js"]),
          ∀ v, (read_file env0 [] n).1 = .ok v → cacheLookup c' n = some v)
      ∧ (∀ m, m ∉ ["html/log.html"] ++ (["javascript/bar.js"] ++ ["javascript/quirks/foo.js"]) →
          cacheLookup c' m = cacheLookup [] m) := by
  apply preload_resources_spec env0 [] ["html/log.html"] ["javascript/bar.js"]
    ["javascript/quirks/foo.js"] rfl rfl rfl (by decide)
  intro n hn
  simp only [List.cons_append, List.nil_append, List.mem_cons,
    List.not_mem_nil, or_false] at hn
  rcases hn with rfl | rfl | rfl
  · exact ⟨"<html>", rfl⟩
  · exact ⟨"b", rfl⟩
  · exact ⟨"js", rfl⟩

/-- C7: with the resource tree unchanged, a second `preload_resources`
run leaves the cache exactly as the first run left it. -/
theorem preload_resources_idempotent (env : Env) (c c' : Cache)
    (h : preload_resources env c = (.ok (), c')) :
    preload_resources env c' = (.ok (), c') := by
  have hu : ∀ d : Cache, preload_resources env d
      = preloadLoop env (rootHandle env) d preloadPairs := by
    intro d
    simp [preload_resources, resource_path_root]
  rw [hu] at h
  rw [hu]
  exact preloadLoop_idem env (rootHandle env) preloadPairs c c' h

/-- The cache produced by preloading `fs0` from empty. -/
def cachePreloaded : Cache :=
  [("html/log.html", "<html>"), ("javascript/bar.js", "b"),
   ("javascript/quirks/foo.js", "js")]

/-- Witness for C7: re-running preload on the already-populated cache
returns the identical cache. -/
theorem preload_resources_idempotent_witness :
    preload_resources env0 cachePreloaded = (.ok (), cachePreloaded) :=
  preload_resources_idempotent env0 [] cachePreloaded rfl

/-- C8: after `preload_resources` has run from the empty cache, every
name discoverable by the configured pairs is a cache key, and
`read_file` — answering from the cache — returns exactly what the direct
uncached UTF-8 text read of that name returns. -/
theorem preload_read_file_coherent (env : Env) (c' : Cache) (L1 L2 L3 : List String)
    (h1 : glob_resources env (rootHandle env) "html" ".html" = .ok L1)
    (h2 : glob_resources env (rootHandle env) "javascript" ".js" = .ok L2)
    (h3 : glob_resources env (rootHandle env) "javascript/quirks" ".js" = .ok L3)
    (hnd : (L1 ++ (L2 ++ L3)).Nodup)
    (hpre : preload_resources env [] = (.ok (), c'))
    (n : String) (hn : n ∈ L1 ++ (L2 ++ L3)) :
    ∃ v, cacheLookup c' n = some v
      ∧ read_file env c' n = (.ok v, c')
      ∧ uncached_read_text env n = .ok v := by
  rw [preload_eq_names env [] L1 L2 L3 h1 h2 h3] at hpre
  have hok := preloadNames_ok_reads env (L1 ++ (L2 ++ L3)) [] [] c'
    (fun _ _ => rfl) hnd hpre
  obtain ⟨c2, hc2, hmem, _⟩ :=
    preloadNames_spec env (L1 ++ (L2 ++ L3)) [] [] (fun _ _ => rfl) hok hnd
  have hcc : c' = c2 := by
    rw [hpre] at hc2
    exact congrArg Prod.snd hc2
  obtain ⟨v, hv⟩ := hok n hn
  have hlook : cacheLookup c' n = some v := by
    rw [hcc]
    exact hmem n hn v hv
  refine ⟨v, hlook, by simp [read_file, hlook], ?_⟩
  rw [← read_file_empty_fst env n]
  exact hv

/-- Witness for C8: the preloaded entry for `html/log.html` agrees with
its direct uncached read. -/
theorem preload_read_file_coherent_witness :
    ∃ v, cacheLookup cachePreloaded "html/log.html" = some v
      ∧ read_file env0 cachePreloaded "html/log.html" = (.ok v, cachePreloaded)
      ∧ uncached_read_text env0 "html/log.html" = .ok v :=
  preload_read_file_coherent env0 cachePreloaded ["html/log.html"]
    ["javascript/bar.js"] ["javascript/quirks/foo.js"] rfl rfl rfl (by decide) rfl
    "html/log.html" (by decide)

end Resources
